import Mathlib

set_option maxRecDepth 8000

/-!
Verification of the headline-title parser of the orgize repository
(`src/elements/title.rs`), shallowly embedded over `List Char`.

Strings are modelled as `List Char`; the nom parser type
`IResult<&str, T>` is modelled as `List Char → Except ErrKind (List Char × T)`
where `Except.ok (rem, v)` carries the remaining input and the value, and
`ErrKind` keeps just enough of nom's `ErrorKind` to distinguish the explicit
`ErrorKind::Tag` error of `parse_properties_drawer` (all other error kinds are
collapsed, since no code path inspects them).

`Cow<str>` fields become plain `List Char`, `HashMap` becomes an association
list whose `insert` replaces an existing binding, and byte indices coincide
with character indices for the operations used (the only byte searched for is
the ASCII space, which in UTF-8 occurs exactly at the char `' '`).
-/

namespace Orgize

/-- Characters are converted from string literals through this helper. -/
def sL (s : String) : List Char := s.toList

/-- The ASCII fragment of Rust's `char::is_whitespace` relevant to this code
(space, tab, newline, carriage return). -/
def isWS (c : Char) : Bool := c == ' ' || c == '\t' || c == '\n' || c == '\r'

/-- Rust `str::trim_start`. -/
def trimStart (l : List Char) : List Char := l.dropWhile isWS

/-- Rust `str::trim_end`: remove trailing whitespace. -/
def trimEnd : List Char → List Char
  | [] => []
  | x :: xs =>
    match trimEnd xs with
    | [] => if isWS x then [] else [x]
    | y :: ys => x :: y :: ys

/-- Rust `str::trim`. -/
def trim (l : List Char) : List Char := trimEnd (trimStart l)

/-- Rust `str::trim_end_matches(c)`: remove every trailing occurrence of `c`. -/
def trimEndMatches (c : Char) : List Char → List Char
  | [] => []
  | x :: xs =>
    match trimEndMatches c xs with
    | [] => if x == c then [] else [x]
    | y :: ys => x :: y :: ys

/-- The part of nom's `ErrorKind` that matters here: the `Tag` kind (used by
the explicit tag-mismatch error and by the `tag` combinator), the `Many0`
kind produced by `fold_many0` on a non-consuming iteration, and everything
else collapsed into `other`. -/
inductive ErrKind : Type
  | tag : ErrKind
  | many0 : ErrKind
  | other : ErrKind
deriving DecidableEq

/-- The parser type: nom's `IResult<&str, α>` over `List Char`. -/
abbrev P (α : Type) : Type := List Char → Except ErrKind (List Char × α)

/-- nom `combinator::map`. -/
def pmap {α β : Type} (p : P α) (f : α → β) : P β := fun input =>
  match p input with
  | .error e => .error e
  | .ok (rem, a) => .ok (rem, f a)

/-- nom `combinator::opt`: on error, succeed with `none` and the untouched input. -/
def opt {α : Type} (p : P α) : P (Option α) := fun input =>
  match p input with
  | .ok (rem, a) => .ok (rem, some a)
  | .error _ => .ok (input, none)

/-- nom `sequence::preceded`. -/
def preceded {α β : Type} (p : P α) (q : P β) : P β := fun input =>
  match p input with
  | .error e => .error e
  | .ok (rem, _) => q rem

/-- nom `combinator::verify`: run `p`, fail unless the predicate holds. -/
def verify {α : Type} (p : P α) (f : α → Bool) : P α := fun input =>
  match p input with
  | .error e => .error e
  | .ok (rem, a) => if f a then .ok (rem, a) else .error .other

/-- nom `combinator::map_parser`: run `p`, then run `q` on the produced slice;
the part of the slice that `q` leaves unconsumed is discarded. -/
def mapParser {β : Type} (p : P (List Char)) (q : P β) : P β := fun input =>
  match p input with
  | .error e => .error e
  | .ok (rem, s) =>
    match q s with
    | .error e => .error e
    | .ok (_, b) => .ok (rem, b)

/-- nom `sequence::delimited`. -/
def delimited {α β γ : Type} (a : P α) (b : P β) (c : P γ) : P β := fun input =>
  match a input with
  | .error e => .error e
  | .ok (i1, _) =>
    match b i1 with
    | .error e => .error e
    | .ok (i2, x) =>
      match c i2 with
      | .error e => .error e
      | .ok (i3, _) => .ok (i3, x)

/-- nom `bytes::complete::tag`. -/
def tagP (t : List Char) : P (List Char) := fun input =>
  if t.isPrefixOf input then .ok (input.drop t.length, t) else .error .tag

/-- nom `character::complete::anychar`. -/
def anychar : P Char := fun input =>
  match input with
  | [] => .error .other
  | c :: rest => .ok (rest, c)

/-- nom `character::complete::space1`: one or more spaces or tabs. -/
def space1 : P (List Char) := fun input =>
  let w := input.takeWhile (fun c => c == ' ' || c == '\t')
  if w.isEmpty then .error .other else .ok (input.drop w.length, w)

/-- nom `bytes::complete::take_while`: never fails. -/
def takeWhileP (f : Char → Bool) : P (List Char) := fun input =>
  .ok (input.dropWhile f, input.takeWhile f)

/-- nom `bytes::complete::take_until(":")`: the input before the first `':'`,
failing when there is none. -/
def take_until_colon : P (List Char) := fun input =>
  let w := input.takeWhile (fun c => c != ':')
  if w.length < input.length then .ok (input.drop w.length, w) else .error .other

/-- Modelled from the spec: `line` from the crate's internal parsers module
(`crate::parsers`, not under src). "Consume the remainder of the physical
line": the content before the first newline, with the remaining input starting
after that newline (the whole input, and empty remainder, when no newline
exists). -/
def line : P (List Char) := fun input =>
  let content := input.takeWhile (fun c => c != '\n')
  .ok (input.drop (content.length + 1), content)

/-- Modelled from the spec: `take_one_word` from the crate's internal parsers
module (not under src). "Read the next whitespace-delimited word": the maximal
leading run of non-whitespace characters, failing when it is empty. -/
def take_one_word : P (List Char) := fun input =>
  let w := input.takeWhile (fun c => !isWS c)
  if w.isEmpty then .error .other else .ok (input.drop w.length, w)

/-- Fuel-indexed worker for `skip_empty_lines`. -/
def skipGo : Nat → List Char → List Char
  | 0, input => input
  | fuel + 1, input =>
    let content := input.takeWhile (fun c => c != '\n')
    if content.length < input.length && content.all isWS then
      skipGo fuel (input.drop (content.length + 1))
    else input

/-- Modelled from the spec: `skip_empty_lines` from the crate's internal
parsers module (not under src). "Skip blank lines": drop every leading line
that consists only of whitespace and is terminated by a newline. -/
def skip_empty_lines (input : List Char) : List Char := skipGo (input.length + 1) input

/-- Fuel-indexed worker for `fold_many0`; the fuel always suffices because a
non-consuming success stops the loop with a `Many0` error, exactly as nom's
`fold_many0` does. -/
def foldGo {α β : Type} (p : P α) (f : β → α → β) : Nat → List Char → β → Except ErrKind (List Char × β)
  | 0, _, _ => .error .other
  | fuel + 1, input, acc =>
    match p input with
    | .error _ => .ok (input, acc)
    | .ok (rem, a) => if rem = input then .error .many0 else foldGo p f fuel rem (f acc a)

/-- nom `multi::fold_many0`. -/
def fold_many0 {α β : Type} (p : P α) (init : β) (f : β → α → β) : P β := fun input =>
  foldGo p f (input.length + 1) input init

/-- `crate::config::ParseConfig` restricted to the two fields this module
reads: the caller-supplied todo and done keyword vocabularies. -/
structure ParseConfig : Type where
  todo_keywords : List (List Char)
  done_keywords : List (List Char)
deriving DecidableEq

/-- Modelled from the spec: the external `Planning` record, "produced entirely
by an external parser; the core treats it as opaque"; represented as a record
with an uninterpreted payload. -/
structure Planning : Type where
  payload : List Char
deriving DecidableEq

/-- Modelled from the spec: the external detach operation of the `Planning`
record; on values (which carry no lifetimes here) it is the identity. -/
def Planning.into_owned (p : Planning) : Planning := p

/-- The `Title` struct of `title.rs`, fields in source order. -/
structure Title : Type where
  level : Nat
  priority : Option Char
  tags : List (List Char)
  keyword : Option (List Char)
  raw : List Char
  planning : Option Planning
  properties : List (List Char × List Char)
deriving DecidableEq

def archiveName : List Char := sL ("ARCHIVE")

/-- `Title::is_archived`: whether some tag equals `"ARCHIVE"`. -/
def Title.is_archived (t : Title) : Bool := t.tags.any (fun tg => tg == archiveName)

/-- `Title::into_owned`: every `Cow` field is detached; on values this maps
each string to itself, mirroring the field-by-field structure of the source. -/
def Title.into_owned (t : Title) : Title :=
  Title.mk t.level t.priority (t.tags.map (fun s => s)) (t.keyword.map (fun s => s))
    t.raw (t.planning.map (fun p => p.into_owned)) (t.properties.map (fun kv => (kv.1, kv.2)))

/-- `memrchr(b' ', tail.as_bytes())`: the index of the last occurrence of a
character. -/
def lastIdxOf (c : Char) : List Char → Option Nat
  | [] => none
  | x :: xs =>
    match lastIdxOf c xs with
    | some i => some (i + 1)
    | none => if x = c then some 0 else none

/-- Rust `str::split(c)`: split at every occurrence of `c`; the result is
never empty, and empty segments are kept (callers filter them out). -/
def splitCh (c : Char) : List Char → List (List Char)
  | [] => [[]]
  | x :: xs =>
    if x = c then [] :: splitCh c xs
    else
      match splitCh c xs with
      | [] => [[x]]
      | y :: ys => (x :: y) :: ys

/-- The acceptance test on a tag-block candidate:
`x.len() > 2 && x.starts_with(':') && x.ends_with(':')`. -/
def tagsCond (x : List Char) : Bool :=
  decide (2 < x.length) && decide (x.head? = some ':') && decide (x.getLast? = some ':')

/-- Lines 133-148 of `title.rs`: split the trimmed tail at its last space,
accept the split only when the right part passes `tagsCond`, fall back to the
whole tail otherwise, then split the accepted tag block on `':'` discarding
empty segments. -/
def extract_tags (tl : List Char) : List Char × List (List Char) :=
  let pair := (((lastIdxOf ' ' tl).map (fun i => (trim (tl.take i), tl.drop (i + 1)))).filter
      (fun p => tagsCond p.2)).getD (tl, [])
  (pair.1, (splitCh ':' pair.2).filter (fun s => !s.isEmpty))

/-- The keyword membership closure of lines 115-118: case-sensitive equality
with some entry of either vocabulary. -/
def keywordVerify (config : ParseConfig) (s : List Char) : Bool :=
  config.todo_keywords.any (fun x => x == s) || config.done_keywords.any (fun x => x == s)

/-- Lines 113-119: the optional keyword step. -/
def keywordStep (config : ParseConfig) : P (Option (List Char)) :=
  opt (preceded space1 (verify take_one_word (keywordVerify config)))

/-- Rust `char::is_ascii_uppercase`. -/
def isAsciiUpper (c : Char) : Bool := 'A' ≤ c && c ≤ 'Z'

/-- The inner priority-cookie parser of lines 124-129:
`delimited(tag("[#"), verify(anychar, is_ascii_uppercase), tag("]"))`. -/
def priorityInner : P Char :=
  delimited (tagP (['[', '#'])) (verify anychar isAsciiUpper) (tagP ([']']))

/-- Lines 120-130: the optional priority step. -/
def priorityStep : P (Option Char) :=
  opt (preceded space1 (mapParser take_one_word priorityInner))

/-- `parse_headline` (lines 96-151): level, optional keyword, optional
priority, raw title, tags. -/
def parse_headline (config : ParseConfig) :
    P (Nat × Option (List Char) × Option Char × List Char × List (List Char)) := fun input =>
  match pmap (takeWhileP (fun c => c == '*')) (fun s => s.length) input with
  | .error e => .error e
  | .ok (i1, level) =>
    match keywordStep config i1 with
    | .error e => .error e
    | .ok (i2, keyword) =>
      match priorityStep i2 with
      | .error e => .error e
      | .ok (i3, priority) =>
        match line i3 with
        | .error e => .error e
        | .ok (i4, tailRaw) =>
          let pr := extract_tags (trim tailRaw)
          .ok (i4, (level, keyword, priority, pr.1, pr.2))

def endLineName : List Char := sL (":END:")

/-- Body collector for the modelled drawer parser: the lines before the first
line whose trimmed content is `:END:`, kept verbatim with their newlines,
together with the input after that end line. -/
def drawerBodyGo : Nat → List Char → Option (List Char × List Char)
  | 0, _ => none
  | fuel + 1, input =>
    let content := input.takeWhile (fun c => c != '\n')
    let rest := input.drop (content.length + 1)
    if trim content = endLineName then some ([], rest)
    else if content.length < input.length then
      (drawerBodyGo fuel rest).map (fun br => (content ++ '\n' :: br.1, br.2))
    else none

/-- Characters allowed in a drawer name by the modelled drawer parser. -/
def drawerNameChar (c : Char) : Bool := c != ':' && !isWS c

/-- Modelled from the spec: the external generic drawer-block parser
(`Drawer::parse`, not under src): "parse(text_with_leading_whitespace_trimmed)
-> (remaining_text, (drawer_name, drawer_body))". A first line of the shape
`:NAME:`, then body lines until a line whose trimmed content is `:END:`;
returns the input after that end line together with the name and the body. -/
def drawerParse : P (List Char × List Char) := fun input =>
  match input with
  | ':' :: rest =>
    let name := rest.takeWhile drawerNameChar
    if name.isEmpty then .error .tag
    else
      match rest.drop name.length with
      | ':' :: rest2 =>
        let rest3 := rest2.drop ((rest2.takeWhile (fun c => c != '\n')).length + 1)
        match drawerBodyGo (rest3.length + 1) rest3 with
        | some (body, rem) => .ok (rem, (name, body))
        | none => .error .tag
      | _ => .error .tag
  | _ => .error .tag

/-- `HashMap::insert`: replace any existing binding of the key, add the new
binding. -/
def insertKV (m : List (List Char × List Char)) (k v : List Char) :
    List (List Char × List Char) :=
  m.filter (fun kv => !(kv.1 == k)) ++ [(k, v)]

/-- `parse_node_property` (lines 169-176): skip blank lines and leading
whitespace, read `:NAME:` trimming trailing `'+'` from the name, take the rest
of the physical line trimmed as the value. -/
def parse_node_property : P (List Char × List Char) := fun input0 =>
  let input := trimStart (skip_empty_lines input0)
  match pmap (delimited (tagP ([':'])) take_until_colon (tagP ([':'])))
      (fun s => trimEndMatches '+' s) input with
  | .error e => .error e
  | .ok (i1, name) =>
    match line i1 with
    | .error e => .error e
    | .ok (i2, value) => .ok (i2, (name, trim value))

def propertiesName : List Char := sL ("PROPERTIES")

/-- `parse_properties_drawer` (lines 153-167): recognize a drawer on the
start-trimmed input, demand its name be `PROPERTIES` (tag-mismatch error
otherwise), and fold `parse_node_property` over its body into the map. -/
def parse_properties_drawer : P (List (List Char × List Char)) := fun input =>
  match drawerParse (trimStart input) with
  | .error e => .error e
  | .ok (rem, (name, content)) =>
    if name = propertiesName then
      match fold_many0 parse_node_property ([] : List (List Char × List Char))
          (fun acc kv => insertKV acc kv.1 kv.2) content with
      | .error e => .error e
      | .ok (_, m) => .ok (rem, m)
    else .error .tag

/-- `Title::parse` (lines 46-73). The external `Planning::parse` (not under
src; the spec treats it as an external collaborator) is taken as the parameter
`pp`: its result is attached on success and silently dropped on failure, then
the properties drawer is attempted through `opt`. -/
def Title.parse (pp : P Planning) (config : ParseConfig) : P (Title × List Char) := fun input =>
  match parse_headline config input with
  | .error e => .error e
  | .ok (i1, (level, keyword, priority, raw, tags)) =>
    let pl :=
      match pp i1 with
      | .ok (i2, p) => (i2, some p)
      | .error _ => (i1, none)
    match opt parse_properties_drawer pl.1 with
    | .error e => .error e
    | .ok (i3, props) =>
      .ok (i3, (Title.mk level priority tags keyword raw pl.2 (props.getD []), raw))

/-- Written from the specification text of 4.1 step 5, for comparison with
`extract_tags`: scan for the last space, split, accept the split only when the
right part has length above 2 and starts and ends with a colon, in which case
the raw title is the trimmed left part and the tags are the right part split
on `':'` with empty segments discarded; otherwise the whole tail with no tags. -/
def extractTagsSpec (tl : List Char) : List Char × List (List Char) :=
  match lastIdxOf ' ' tl with
  | none => (tl, [])
  | some i =>
    let candTags := tl.drop (i + 1)
    if 2 < candTags.length ∧ candTags.head? = some ':' ∧ candTags.getLast? = some ':' then
      (trim (tl.take i), (splitCh ':' candTags).filter (fun s => !s.isEmpty))
    else (tl, [])

/-- Written from the specification text of 4.1 step 2, for comparison with
`keywordStep`: after whitespace, the next whitespace-delimited word is
accepted as keyword exactly when it is a member of either vocabulary;
otherwise nothing is consumed. -/
def keywordStepSpec (config : ParseConfig) : P (Option (List Char)) := fun input =>
  match space1 input with
  | .error _ => .ok (input, none)
  | .ok (i1, _) =>
    match take_one_word i1 with
    | .error _ => .ok (input, none)
    | .ok (i2, w) =>
      if w ∈ config.todo_keywords ∨ w ∈ config.done_keywords then .ok (i2, some w)
      else .ok (input, none)

/-- The value the priority machinery extracts from a candidate word: the word
must BEGIN with `[#`, an uppercase ASCII letter, `]`; later characters of the
word are ignored (nom's `map_parser` discards what the inner parser leaves). -/
def priorityWordVal (w : List Char) : Option Char :=
  match w with
  | a :: b :: c :: d :: _ =>
    if a = '[' ∧ b = '#' ∧ d = ']' ∧ isAsciiUpper c = true then some c else none
  | _ => none

/-- Written from the (amended) specification text of 4.1 step 3, for
comparison with `priorityStep`: after whitespace, the next word is consumed as
priority exactly when `priorityWordVal` accepts it. -/
def priorityStepSpec : P (Option Char) := fun input =>
  match space1 input with
  | .error _ => .ok (input, none)
  | .ok (i1, _) =>
    match take_one_word i1 with
    | .error _ => .ok (input, none)
    | .ok (i2, w) =>
      match priorityWordVal w with
      | some c => .ok (i2, some c)
      | none => .ok (input, none)

/-- The claim's reading of the priority cookie: the word EXACTLY matches
`[#` + one uppercase ASCII letter + `]`. -/
def exactPriorityCookie (w : List Char) : Bool :=
  match w with
  | ['[', '#', c, ']'] => isAsciiUpper c
  | _ => false

/-- `:t1:t2:...:tn:` without its leading colon. -/
def tagBlockJoin (tags : List (List Char)) : List Char :=
  tags.foldr (fun t acc => t ++ ':' :: acc) []

/-- The reconstructed tag block `:t1:t2:...:tn:` of the round-trip claim. -/
def tagBlock (tags : List (List Char)) : List Char := ':' :: tagBlockJoin tags

/-- A configuration with empty vocabularies. -/
def cfgEmpty : ParseConfig := ParseConfig.mk [] []

/-- The default-like configuration of the source's tests:
todo `TODO`, done `DONE`. -/
def cfgTD : ParseConfig := ParseConfig.mk ([sL ("TODO")]) ([sL ("DONE")])

/-- A vocabulary not containing `DONE`. -/
def cfgNoDone : ParseConfig := ParseConfig.mk ([sL ("TODO")]) []

/-- A planning parser that always fails. -/
def ppFail : P Planning := fun _ => .error .other

/-- A planning parser that consumes the first line into the payload. -/
def ppLine : P Planning := fun input =>
  match input with
  | [] => .error .other
  | _ =>
    let content := input.takeWhile (fun c => c != '\n')
    .ok (input.drop (content.length + 1), Planning.mk content)

theorem takeWhile_append_not {p : Char → Bool} {a : List Char} {c : Char} (b : List Char)
    (ha : ∀ x ∈ a, p x = true) (hc : p c = false) :
    (a ++ c :: b).takeWhile p = a := by
  induction a with
  | nil => simp [List.takeWhile_cons, hc]
  | cons x xs ih =>
    have hx : p x = true := ha x (by simp)
    simp only [List.cons_append, List.takeWhile_cons, hx, if_pos]
    rw [ih (fun y hy => ha y (by simp [hy]))]

theorem dropWhile_append_not {p : Char → Bool} {a : List Char} {c : Char} (b : List Char)
    (ha : ∀ x ∈ a, p x = true) (hc : p c = false) :
    (a ++ c :: b).dropWhile p = c :: b := by
  induction a with
  | nil => simp [List.dropWhile_cons, hc]
  | cons x xs ih =>
    have hx : p x = true := ha x (by simp)
    simp only [List.cons_append, List.dropWhile_cons, hx, if_pos]
    exact ih (fun y hy => ha y (by simp [hy]))

theorem dropWhile_head_false {p : Char → Bool} {l : List Char} {a : Char}
    (h : (l.dropWhile p).head? = some a) : p a = false := by
  induction l with
  | nil => simp at h
  | cons x xs ih =>
    rw [List.dropWhile_cons] at h
    by_cases hx : p x = true
    · exact ih (by simpa [hx] using h)
    · simp [hx] at h
      subst h
      simpa using hx

theorem lastIdxOf_eq_none {c : Char} {l : List Char} (h : c ∉ l) : lastIdxOf c l = none := by
  induction l with
  | nil => rfl
  | cons x xs ih =>
    have hx : ¬ x = c := fun he => h (he ▸ List.mem_cons_self x xs)
    have hxs : c ∉ xs := fun hm => h (List.mem_cons_of_mem _ hm)
    simp [lastIdxOf, ih hxs, hx]

theorem not_mem_of_lastIdxOf_none {c : Char} {l : List Char} (h : lastIdxOf c l = none) :
    c ∉ l := by
  induction l with
  | nil => simp
  | cons x xs ih =>
    simp only [lastIdxOf] at h
    cases hxs : lastIdxOf c xs with
    | some i => rw [hxs] at h; cases h
    | none =>
      rw [hxs] at h
      by_cases hx : x = c
      · simp [hx] at h
      · intro hm
        rcases List.mem_cons.mp hm with h1 | h2
        · exact hx h1.symm
        · exact ih hxs h2

theorem lastIdxOf_append_cons {c : Char} (a : List Char) {b : List Char} (hb : c ∉ b) :
    lastIdxOf c (a ++ c :: b) = some a.length := by
  induction a with
  | nil => simp [lastIdxOf, lastIdxOf_eq_none hb]
  | cons x xs ih => simp [lastIdxOf, ih]

theorem lastIdxOf_getElem {c : Char} :
    ∀ {l : List Char} {i : Nat}, lastIdxOf c l = some i →
      l[i]? = some c ∧ ∀ j, i < j → l[j]? ≠ some c := by
  intro l
  induction l with
  | nil => intro i h; cases h
  | cons x xs ih =>
    intro i h
    simp only [lastIdxOf] at h
    cases hxs : lastIdxOf c xs with
    | some k =>
      rw [hxs] at h
      injection h with h
      subst h
      refine ⟨by simpa using (ih hxs).1, ?_⟩
      intro j hj
      match j, hj with
      | m + 1, hj =>
        simpa using (ih hxs).2 m (Nat.lt_of_succ_lt_succ hj)
    | none =>
      rw [hxs] at h
      by_cases hx : x = c
      · rw [if_pos hx] at h
        injection h with h
        subst h
        refine ⟨by simp [hx], ?_⟩
        intro j hj
        match j, hj with
        | m + 1, _ =>
          simp only [List.getElem?_cons_succ]
          intro hm
          exact not_mem_of_lastIdxOf_none hxs (List.getElem?_mem hm)
      · rw [if_neg hx] at h
        cases h

theorem not_mem_drop_of_lastIdxOf {c : Char} :
    ∀ {l : List Char} {i : Nat}, lastIdxOf c l = some i → c ∉ l.drop (i + 1) := by
  intro l
  induction l with
  | nil => intro i h; cases h
  | cons x xs ih =>
    intro i h
    simp only [lastIdxOf] at h
    cases hxs : lastIdxOf c xs with
    | some k =>
      rw [hxs] at h
      injection h with h
      subst h
      simpa using ih hxs
    | none =>
      rw [hxs] at h
      by_cases hx : x = c
      · rw [if_pos hx] at h
        injection h with h
        subst h
        simpa using not_mem_of_lastIdxOf_none hxs
      · rw [if_neg hx] at h
        cases h

theorem trimEnd_cons (x : Char) (l : List Char) :
    trimEnd (x :: l) =
      match trimEnd l with
      | [] => if isWS x = true then [] else [x]
      | y :: ys => x :: y :: ys := rfl

theorem trimEnd_trimEnd (l : List Char) : trimEnd (trimEnd l) = trimEnd l := by
  induction l with
  | nil => rfl
  | cons x xs ih =>
    cases hxs : trimEnd xs with
    | nil =>
      by_cases hx : isWS x = true
      · simp [trimEnd_cons, hxs, hx, trimEnd]
      · simp [trimEnd_cons, hxs, hx, trimEnd]
    | cons y ys =>
      have h1 : trimEnd (x :: xs) = x :: y :: ys := by
        simp [trimEnd_cons, hxs]
      rw [h1]
      have h2 : trimEnd (y :: ys) = y :: ys := by
        rw [← hxs]; exact ih
      rw [trimEnd_cons, h2]

theorem trimEnd_cons_head {x : Char} {xs : List Char} {y : Char} {ys : List Char}
    (h : trimEnd (x :: xs) = y :: ys) : y = x := by
  simp only [trimEnd] at h
  cases hxs : trimEnd xs with
  | nil =>
    rw [hxs] at h
    by_cases hx : isWS x = true
    · simp [hx] at h
    · simp [hx] at h
      exact h.1.symm
  | cons z zs =>
    rw [hxs] at h
    injection h with h1 h2
    exact h1.symm

theorem trimStart_trim (l : List Char) : trimStart (trim l) = trim l := by
  unfold trim
  cases h : trimEnd (trimStart l) with
  | nil => rfl
  | cons y ys =>
    cases hs : trimStart l with
    | nil => rw [hs] at h; cases h
    | cons a as =>
      rw [hs] at h
      have hy : y = a := trimEnd_cons_head h
      have hmem : (trimStart l).head? = some a := by rw [hs]; rfl
      have ha : isWS a = false := dropWhile_head_false hmem
      subst hy
      simp [trimStart, List.dropWhile_cons, ha]

theorem trim_trim (l : List Char) : trim (trim l) = trim l := by
  show trimEnd (trimStart (trim l)) = trim l
  rw [trimStart_trim l]
  show trimEnd (trimEnd (trimStart l)) = trim l
  rw [trimEnd_trimEnd]
  rfl

theorem splitCh_ne_nil (c : Char) (l : List Char) : splitCh c l ≠ [] := by
  induction l with
  | nil => simp [splitCh]
  | cons x xs ih =>
    simp only [splitCh]
    by_cases hx : x = c
    · simp [hx]
    · rw [if_neg hx]
      cases h : splitCh c xs with
      | nil => simp
      | cons y ys => simp

theorem mem_splitCh {c : Char} :
    ∀ {l s : List Char}, s ∈ splitCh c l → ∀ x ∈ s, x ∈ l ∧ ¬ x = c := by
  intro l
  induction l with
  | nil =>
    intro s hs x hx
    simp [splitCh] at hs
    subst hs
    cases hx
  | cons a xs ih =>
    intro s hs x hx
    simp only [splitCh] at hs
    by_cases ha : a = c
    · rw [if_pos ha] at hs
      rcases List.mem_cons.mp hs with h1 | h2
      · subst h1; cases hx
      · have := ih h2 x hx
        exact ⟨List.mem_cons_of_mem _ this.1, this.2⟩
    · rw [if_neg ha] at hs
      cases hsp : splitCh c xs with
      | nil => exact absurd hsp (splitCh_ne_nil c xs)
      | cons y ys =>
        rw [hsp] at hs
        rcases List.mem_cons.mp hs with h1 | h2
        · subst h1
          rcases List.mem_cons.mp hx with hxa | hxy
          · subst hxa
            exact ⟨List.mem_cons_self _ _, ha⟩
          · have hy : y ∈ splitCh c xs := by rw [hsp]; exact List.mem_cons_self _ _
            have := ih hy x hxy
            exact ⟨List.mem_cons_of_mem _ this.1, this.2⟩
        · have hsx : s ∈ splitCh c xs := by rw [hsp]; exact List.mem_cons_of_mem _ h2
          have := ih hsx x hx
          exact ⟨List.mem_cons_of_mem _ this.1, this.2⟩

theorem splitCh_append_cons {c : Char} {t : List Char} (ht : c ∉ t) (r : List Char) :
    splitCh c (t ++ c :: r) = t :: splitCh c r := by
  induction t with
  | nil => simp [splitCh]
  | cons x xs ih =>
    have hx : ¬ x = c := fun he => ht (he ▸ List.mem_cons_self x xs)
    have hxs : c ∉ xs := fun hm => ht (List.mem_cons_of_mem _ hm)
    simp only [List.cons_append, splitCh, if_neg hx, List.append_eq]
    rw [ih hxs]

theorem tagBlockJoin_cons (t : List Char) (ts : List (List Char)) :
    tagBlockJoin (t :: ts) = t ++ ':' :: tagBlockJoin ts := rfl

theorem filter_splitCh_tagBlockJoin {tags : List (List Char)}
    (h : ∀ s ∈ tags, s ≠ [] ∧ (':' : Char) ∉ s) :
    (splitCh ':' (tagBlockJoin tags)).filter (fun s => !s.isEmpty) = tags := by
  induction tags with
  | nil => rfl
  | cons t ts ih =>
    rw [tagBlockJoin_cons, splitCh_append_cons (h t (List.mem_cons_self _ _)).2]
    have hne : (!t.isEmpty) = true := by
      have := (h t (List.mem_cons_self _ _)).1
      simpa [List.isEmpty_iff] using this
    simp only [List.filter_cons, hne, if_true]
    rw [ih (fun s hs => h s (List.mem_cons_of_mem _ hs))]

theorem filter_splitCh_tagBlock {tags : List (List Char)}
    (h : ∀ s ∈ tags, s ≠ [] ∧ (':' : Char) ∉ s) :
    (splitCh ':' (tagBlock tags)).filter (fun s => !s.isEmpty) = tags := by
  unfold tagBlock
  have h1 : splitCh ':' (':' :: tagBlockJoin tags) = [] :: splitCh ':' (tagBlockJoin tags) := by
    simp [splitCh]
  rw [h1]
  simp only [List.filter_cons, List.isEmpty_nil, Bool.not_true, Bool.false_eq_true, if_false]
  exact filter_splitCh_tagBlockJoin h

theorem tagBlock_getLast (tags : List (List Char)) : (tagBlock tags).getLast? = some ':' := by
  induction tags with
  | nil => rfl
  | cons t ts ih =>
    have h1 : tagBlock (t :: ts) = (':' :: t) ++ tagBlock ts := by
      simp [tagBlock, tagBlockJoin_cons]
    rw [h1, List.getLast?_append, ih]
    rfl

theorem mem_tagBlock {x : Char} :
    ∀ {tags : List (List Char)}, x ∈ tagBlock tags → x = ':' ∨ ∃ s ∈ tags, x ∈ s := by
  intro tags
  induction tags with
  | nil =>
    intro h
    simp [tagBlock, tagBlockJoin] at h
    exact Or.inl h
  | cons t ts ih =>
    intro h
    have h1 : tagBlock (t :: ts) = (':' :: t) ++ tagBlock ts := by
      simp [tagBlock, tagBlockJoin_cons]
    rw [h1] at h
    rcases List.mem_append.mp h with h2 | h3
    · rcases List.mem_cons.mp h2 with h4 | h5
      · exact Or.inl h4
      · exact Or.inr ⟨t, List.mem_cons_self _ _, h5⟩
    · rcases ih h3 with h6 | ⟨s, hs, hx⟩
      · exact Or.inl h6
      · exact Or.inr ⟨s, List.mem_cons_of_mem _ hs, hx⟩

theorem tagBlock_length_gt {t : List Char} (ts : List (List Char)) (ht : t ≠ []) :
    2 < (tagBlock (t :: ts)).length := by
  have h1 : 1 ≤ t.length := List.length_pos.mpr ht
  simp [tagBlock, tagBlockJoin_cons, List.length_append]
  omega

theorem extract_tags_eq_spec (tl : List Char) : extract_tags tl = extractTagsSpec tl := by
  unfold extract_tags extractTagsSpec
  cases h : lastIdxOf ' ' tl with
  | none => simp [h, splitCh]
  | some i =>
    simp only [h, Option.map_some', Option.filter_some]
    by_cases hc : tagsCond (tl.drop (i + 1)) = true
    · have hp : (2 < (tl.drop (i + 1)).length ∧ (tl.drop (i + 1)).head? = some ':' ∧
          (tl.drop (i + 1)).getLast? = some ':') := by
        have := hc
        unfold tagsCond at this
        simp only [Bool.and_eq_true, decide_eq_true_eq] at this
        exact ⟨this.1.1, this.1.2, this.2⟩
      simp only [hc, if_pos, if_true]
      rw [if_pos hp]
      rfl
    · have hp : ¬ (2 < (tl.drop (i + 1)).length ∧ (tl.drop (i + 1)).head? = some ':' ∧
          (tl.drop (i + 1)).getLast? = some ':') := by
        intro hcon
        apply hc
        unfold tagsCond
        simp only [Bool.and_eq_true, decide_eq_true_eq]
        exact ⟨⟨hcon.1, hcon.2.1⟩, hcon.2.2⟩
      simp only [Bool.not_eq_true] at hc
      simp only [hc, if_false, Bool.false_eq_true]
      rw [if_neg hp]
      simp [splitCh]

theorem extract_tags_elim {tl raw : List Char} {tags : List (List Char)}
    (h : extract_tags tl = (raw, tags)) (hne : tags ≠ []) :
    ∃ i, lastIdxOf ' ' tl = some i ∧ raw = trim (tl.take i) ∧
      tags = (splitCh ':' (tl.drop (i + 1))).filter (fun s => !s.isEmpty) := by
  unfold extract_tags at h
  cases hL : lastIdxOf ' ' tl with
  | none =>
    rw [hL] at h
    simp [splitCh] at h
    exact absurd h.2 hne
  | some i =>
    rw [hL] at h
    simp only [Option.map_some', Option.filter_some] at h
    by_cases hc : tagsCond (tl.drop (i + 1)) = true
    · refine ⟨i, rfl, ?_, ?_⟩
      · simp only [hc, if_true, Option.getD_some] at h
        exact (Prod.mk.injEq _ _ _ _).mp h |>.1.symm
      · simp only [hc, if_true, Option.getD_some] at h
        exact (Prod.mk.injEq _ _ _ _).mp h |>.2.symm
    · simp only [Bool.not_eq_true] at hc
      simp only [hc, Bool.false_eq_true, if_false, Option.getD_none] at h
      simp [splitCh] at h
      exact absurd h.2 hne

/-- C8: for every result of tag extraction with a non-empty tag sequence,
concatenating the raw text, a single space, and the reconstructed tag block
`:t1:t2:...:tn:` and re-running tag extraction reproduces the same raw text
and the same tag sequence in the same order. -/
theorem C8_tags_roundtrip (tl raw : List Char) (tags : List (List Char))
    (h : extract_tags tl = (raw, tags)) (hne : tags ≠ []) :
    extract_tags (raw ++ ' ' :: tagBlock tags) = (raw, tags) := by
  obtain ⟨i, hL, hraw, htags⟩ := extract_tags_elim h hne
  have hB : (' ' : Char) ∉ tl.drop (i + 1) := not_mem_drop_of_lastIdxOf hL
  have htagsfacts : ∀ s ∈ tags, s ≠ [] ∧ (':' : Char) ∉ s ∧ (' ' : Char) ∉ s := by
    intro s hs
    rw [htags] at hs
    have hmem := List.mem_filter.mp hs
    have hs1 : s ∈ splitCh ':' (tl.drop (i + 1)) := hmem.1
    have hs2 : s ≠ [] := by simpa [List.isEmpty_iff] using hmem.2
    refine ⟨hs2, ?_, ?_⟩
    · intro hc
      exact (mem_splitCh hs1 ':' hc).2 rfl
    · intro hsp
      exact hB (mem_splitCh hs1 ' ' hsp).1
  have hTB : (' ' : Char) ∉ tagBlock tags := by
    intro hsp
    rcases mem_tagBlock hsp with h1 | ⟨s, hs, hx⟩
    · exact absurd h1 (by decide)
    · exact (htagsfacts s hs).2.2 hx
  have hL2 : lastIdxOf ' ' (raw ++ ' ' :: tagBlock tags) = some raw.length :=
    lastIdxOf_append_cons raw hTB
  have htake : (raw ++ ' ' :: tagBlock tags).take raw.length = raw := List.take_left _ _
  have hdrop : (raw ++ ' ' :: tagBlock tags).drop (raw.length + 1) = tagBlock tags := by
    rw [← List.drop_drop, List.drop_left]
    rfl
  have hcond : tagsCond (tagBlock tags) = true := by
    obtain ⟨t, ts, rfl⟩ : ∃ t ts, tags = t :: ts := by
      cases tags with
      | nil => exact absurd rfl hne
      | cons t ts => exact ⟨t, ts, rfl⟩
    unfold tagsCond
    simp only [Bool.and_eq_true, decide_eq_true_eq]
    exact ⟨⟨tagBlock_length_gt ts (htagsfacts t (List.mem_cons_self _ _)).1, rfl⟩,
      tagBlock_getLast _⟩
  have hrawtrim : trim raw = raw := by rw [hraw]; exact trim_trim _
  unfold extract_tags
  rw [hL2]
  simp only [Option.map_some', Option.filter_some, htake, hdrop]
  simp only [hcond, if_true, Option.getD_some, hrawtrim]
  rw [filter_splitCh_tagBlock (fun s hs => ⟨(htagsfacts s hs).1, (htagsfacts s hs).2.1⟩)]

theorem keywordVerify_iff (config : ParseConfig) (w : List Char) :
    keywordVerify config w = true ↔
      (w ∈ config.todo_keywords ∨ w ∈ config.done_keywords) := by
  unfold keywordVerify
  simp [List.any_eq_true]

theorem keywordStep_eq (config : ParseConfig) (input : List Char) :
    keywordStep config input = keywordStepSpec config input := by
  unfold keywordStep keywordStepSpec opt preceded
  cases h1 : space1 input with
  | error e => rfl
  | ok pr1 =>
    obtain ⟨i1, w1⟩ := pr1
    unfold verify
    dsimp only
    cases h2 : take_one_word i1 with
    | error e => rfl
    | ok pr2 =>
      obtain ⟨i2, w⟩ := pr2
      dsimp only
      by_cases hv : keywordVerify config w = true
      · rw [if_pos hv, if_pos ((keywordVerify_iff config w).mp hv)]
      · rw [if_neg hv, if_neg (fun hc => hv ((keywordVerify_iff config w).mpr hc))]

theorem priorityInner_run (w : List Char) :
    (∃ c r, priorityInner w = .ok (r, c) ∧ priorityWordVal w = some c) ∨
    ((∃ e, priorityInner w = .error e) ∧ priorityWordVal w = none) := by
  match w with
  | [] => exact Or.inr ⟨⟨.tag, rfl⟩, rfl⟩
  | a :: w1 =>
    by_cases ha : a = '['
    · subst ha
      match w1 with
      | [] => exact Or.inr ⟨⟨.tag, rfl⟩, rfl⟩
      | b :: w2 =>
        by_cases hb : b = '#'
        · subst hb
          match w2 with
          | [] =>
            exact Or.inr ⟨⟨.other,
              by simp [priorityInner, delimited, tagP, List.isPrefixOf, anychar, verify]⟩, rfl⟩
          | c :: w3 =>
            by_cases hup : isAsciiUpper c = true
            · match w3 with
              | [] =>
                refine Or.inr ⟨⟨.tag, ?_⟩, rfl⟩
                simp [priorityInner, delimited, tagP, List.isPrefixOf, anychar, verify, hup]
              | d :: w4 =>
                by_cases hd : d = ']'
                · subst hd
                  refine Or.inl ⟨c, w4, ?_, ?_⟩
                  · simp [priorityInner, delimited, tagP, List.isPrefixOf, anychar, verify, hup]
                  · simp [priorityWordVal, hup]
                · refine Or.inr ⟨⟨.tag, ?_⟩, ?_⟩
                  · simp [priorityInner, delimited, tagP, List.isPrefixOf, anychar, verify,
                      hup, Ne.symm hd]
                  · simp [priorityWordVal, hd]
            · refine Or.inr ⟨⟨.other, ?_⟩, ?_⟩
              · simp [priorityInner, delimited, tagP, List.isPrefixOf, anychar, verify, hup]
              · match w3 with
                | [] => rfl
                | d :: w4 => simp [priorityWordVal, hup]
        · refine Or.inr ⟨⟨.tag, ?_⟩, ?_⟩
          · simp [priorityInner, delimited, tagP, List.isPrefixOf, Ne.symm hb]
          · match w2 with
            | [] => rfl
            | c :: w3 =>
              match w3 with
              | [] => rfl
              | d :: w4 => simp [priorityWordVal, hb]
    · refine Or.inr ⟨⟨.tag, ?_⟩, ?_⟩
      · simp [priorityInner, delimited, tagP, List.isPrefixOf, Ne.symm ha]
      · match w1 with
        | [] => rfl
        | b :: w2 =>
          match w2 with
          | [] => rfl
          | c :: w3 =>
            match w3 with
            | [] => rfl
            | d :: w4 => simp [priorityWordVal, ha]

theorem priorityStep_eq (input : List Char) : priorityStep input = priorityStepSpec input := by
  unfold priorityStep priorityStepSpec opt preceded mapParser
  cases h1 : space1 input with
  | error e => rfl
  | ok pr1 =>
    obtain ⟨i1, w1⟩ := pr1
    dsimp only
    cases h2 : take_one_word i1 with
    | error e => rfl
    | ok pr2 =>
      obtain ⟨i2, w⟩ := pr2
      dsimp only
      rcases priorityInner_run w with ⟨c, r, hok, hval⟩ | ⟨⟨e, herr⟩, hval⟩
      · rw [hok, hval]
      · rw [herr, hval]

theorem opt_isOk {α : Type} (p : P α) (input : List Char) :
    ∃ rem v, opt p input = .ok (rem, v) := by
  unfold opt
  cases h : p input with
  | error e => exact ⟨input, none, rfl⟩
  | ok pr =>
    obtain ⟨r, a⟩ := pr
    exact ⟨r, some a, rfl⟩

theorem parse_headline_isOk (config : ParseConfig) (input : List Char) :
    ∃ rem out, parse_headline config input = .ok (rem, out) := by
  obtain ⟨r2, v2, h2⟩ := opt_isOk (preceded space1 (verify take_one_word (keywordVerify config)))
    (input.dropWhile fun c => c == '*')
  obtain ⟨r3, v3, h3⟩ := opt_isOk (preceded space1 (mapParser take_one_word priorityInner)) r2
  refine ⟨r3.drop ((r3.takeWhile fun c => c != '\n').length + 1),
    ((input.takeWhile fun c => c == '*').length, v2, v3,
      (extract_tags (trim (r3.takeWhile fun c => c != '\n'))).1,
      (extract_tags (trim (r3.takeWhile fun c => c != '\n'))).2), ?_⟩
  simp only [parse_headline, pmap, takeWhileP, keywordStep, priorityStep, line]
  rw [h2]
  dsimp only
  rw [h3]

/-- C4: the headline-line parser succeeds on every input whatsoever (unmatched
keyword, priority or tag structure degrades into plain title text), and on an
input beginning with a maximal run of n stars, n at least 1, it succeeds with
level equal to n. -/
theorem C4_level_totality :
    (∀ config input, ∃ rem out, parse_headline config input = .ok (rem, out)) ∧
    (∀ (config : ParseConfig) (n : Nat) (rest : List Char), 1 ≤ n →
      rest.head? ≠ some '*' →
      ∃ rem kw pr raw tags,
        parse_headline config (List.replicate n '*' ++ rest) =
          .ok (rem, (n, kw, pr, raw, tags))) := by
  refine ⟨parse_headline_isOk, ?_⟩
  intro config n rest hn hrest
  have hTW : (List.replicate n '*' ++ rest).takeWhile (fun c => c == '*') =
      List.replicate n '*' := by
    cases rest with
    | nil =>
      rw [List.append_nil, List.takeWhile_replicate]
      simp
    | cons r rs =>
      have hr : (r == '*') = false := by
        have hne : ¬ r = '*' := fun he => hrest (by simp [he])
        simpa using hne
      exact takeWhile_append_not rs
        (fun x hx => by
          have hx2 := List.eq_of_mem_replicate hx
          simp [hx2]) hr
  have hDW : (List.replicate n '*' ++ rest).dropWhile (fun c => c == '*') = rest := by
    have hsum := List.takeWhile_append_dropWhile (fun c => c == '*')
      (List.replicate n '*' ++ rest)
    rw [hTW] at hsum
    exact List.append_cancel_left hsum
  obtain ⟨r2, v2, h2⟩ := opt_isOk (preceded space1 (verify take_one_word (keywordVerify config)))
    rest
  obtain ⟨r3, v3, h3⟩ := opt_isOk (preceded space1 (mapParser take_one_word priorityInner)) r2
  refine ⟨r3.drop ((r3.takeWhile fun c => c != '\n').length + 1), v2, v3,
    (extract_tags (trim (r3.takeWhile fun c => c != '\n'))).1,
    (extract_tags (trim (r3.takeWhile fun c => c != '\n'))).2, ?_⟩
  simp only [parse_headline, pmap, takeWhileP, keywordStep, priorityStep, line]
  rw [hDW, hTW, List.length_replicate, h2]
  dsimp only
  rw [h3]

/-- Witness for C4 at the concrete input `** Hi`. -/
theorem C4_level_totality_witness :
    ∃ rem kw pr raw tags,
      parse_headline cfgEmpty (List.replicate 2 '*' ++ sL (" Hi")) =
        .ok (rem, (2, kw, pr, raw, tags)) :=
  C4_level_totality.2 cfgEmpty 2 (sL (" Hi")) (by decide) (by decide)

theorem foldGo_ne_tag {α β : Type} (p : P α) (f : β → α → β) :
    ∀ (fuel : Nat) (input : List Char) (acc : β), foldGo p f fuel input acc ≠ .error .tag := by
  intro fuel
  induction fuel with
  | zero => intro input acc; simp [foldGo]
  | succ m ih =>
    intro input acc
    simp only [foldGo]
    cases hp : p input with
    | error e => simp
    | ok pr =>
      obtain ⟨rem, a⟩ := pr
      dsimp only
      by_cases hr : rem = input
      · rw [if_pos hr]
        simp
      · rw [if_neg hr]
        exact ih rem (f acc a)

/-- C6: when the external drawer parser recognizes a drawer on the
start-trimmed input, the properties-drawer parser returns the tag-mismatch
error exactly when the drawer's name is not `PROPERTIES`, and through `opt`
that error reads as an absent optional block with no input consumed. -/
theorem C6_properties_name (input rem name body : List Char)
    (h : drawerParse (trimStart input) = .ok (rem, (name, body))) :
    (parse_properties_drawer input = .error .tag ↔ name ≠ propertiesName) ∧
    (name ≠ propertiesName → opt parse_properties_drawer input = .ok (input, none)) := by
  have hmain : parse_properties_drawer input =
      if name = propertiesName then
        match fold_many0 parse_node_property ([] : List (List Char × List Char))
            (fun acc kv => insertKV acc kv.1 kv.2) body with
        | .error e => .error e
        | .ok (_, m) => .ok (rem, m)
      else .error .tag := by
    unfold parse_properties_drawer
    rw [h]
  by_cases hname : name = propertiesName
  · have hne : fold_many0 parse_node_property ([] : List (List Char × List Char))
        (fun acc kv => insertKV acc kv.1 kv.2) body ≠ .error .tag :=
      foldGo_ne_tag _ _ _ _ _
    rw [hmain, if_pos hname]
    refine ⟨⟨fun htag => ?_, fun hd => absurd hname hd⟩, fun hd => absurd hname hd⟩
    exfalso
    cases hf : fold_many0 parse_node_property ([] : List (List Char × List Char))
        (fun acc kv => insertKV acc kv.1 kv.2) body with
    | error e =>
      rw [hf] at htag
      dsimp only at htag
      injection htag with he
      rw [he] at hf
      exact hne hf
    | ok pr =>
      obtain ⟨r2, m⟩ := pr
      rw [hf] at htag
      dsimp only at htag
      cases htag
  · refine ⟨?_, fun _ => ?_⟩
    · rw [hmain, if_neg hname]
      exact ⟨fun _ => hname, fun _ => rfl⟩
    · unfold opt
      rw [hmain, if_neg hname]

/-- Witness for C6 at a concrete non-PROPERTIES drawer. -/
theorem C6_properties_name_witness :
    parse_properties_drawer (sL (":LOGBOOK:\nfoo\n:END:")) = .error .tag ∧
    opt parse_properties_drawer (sL (":LOGBOOK:\nfoo\n:END:")) =
      .ok (sL (":LOGBOOK:\nfoo\n:END:"), none) := by
  have h := C6_properties_name (sL (":LOGBOOK:\nfoo\n:END:")) [] (sL ("LOGBOOK"))
    (sL ("foo\n")) (by rfl)
  exact ⟨h.1.mpr (by decide), h.2 (by decide)⟩

/-- C7: after a successful headline line, the assembler always succeeds; a
failing planning parse leaves planning absent with the input untouched, and a
failing properties parse leaves the map empty with the input untouched. -/
theorem C7_assembler_fallbacks (pp : P Planning) (config : ParseConfig)
    (input i1 raw : List Char) (lvl : Nat) (kw : Option (List Char)) (pr : Option Char)
    (tags : List (List Char))
    (h : parse_headline config input = .ok (i1, (lvl, kw, pr, raw, tags))) :
    (∃ rem t rawOut, Title.parse pp config input = .ok (rem, (t, rawOut))) ∧
    ((∃ e, pp i1 = .error e) → (∃ e2, parse_properties_drawer i1 = .error e2) →
      Title.parse pp config input = .ok (i1, (Title.mk lvl pr tags kw raw none [], raw))) ∧
    ((∃ e, pp i1 = .error e) → ∀ rem2 m, parse_properties_drawer i1 = .ok (rem2, m) →
      Title.parse pp config input = .ok (rem2, (Title.mk lvl pr tags kw raw none m, raw))) ∧
    (∀ i2 pl, pp i1 = .ok (i2, pl) → (∃ e2, parse_properties_drawer i2 = .error e2) →
      Title.parse pp config input =
        .ok (i2, (Title.mk lvl pr tags kw raw (some pl) [], raw))) := by
  have hT : Title.parse pp config input =
      (match opt parse_properties_drawer
          (match pp i1 with
           | .ok (i2, p) => (i2, some p)
           | .error _ => (i1, none)).1 with
       | .error e => .error e
       | .ok (i3, props) =>
         .ok (i3, (Title.mk lvl pr tags kw raw
           (match pp i1 with
            | .ok (i2, p) => (i2, some p)
            | .error _ => (i1, none)).2 (props.getD []), raw))) := by
    unfold Title.parse
    rw [h]
  refine ⟨?_, ?_, ?_, ?_⟩
  · rw [hT]
    obtain ⟨ro, vo, ho⟩ := opt_isOk parse_properties_drawer
      (match pp i1 with
       | .ok (i2, p) => (i2, some p)
       | .error _ => (i1, none)).1
    rw [ho]
    exact ⟨ro, _, raw, rfl⟩
  · rintro ⟨e, hpp⟩ ⟨e2, hprop⟩
    rw [hT, hpp]
    dsimp only
    unfold opt
    rw [hprop]
    rfl
  · rintro ⟨e, hpp⟩ rem2 m hprop
    rw [hT, hpp]
    dsimp only
    unfold opt
    rw [hprop]
    rfl
  · rintro i2 pl hpp ⟨e2, hprop⟩
    rw [hT, hpp]
    dsimp only
    unfold opt
    rw [hprop]
    rfl

/-- Witness for C7: with a failing planning parser and no drawer after the
headline, the parsed Title has absent planning, empty properties, and the
input after the headline line untouched. -/
theorem C7_assembler_fallbacks_witness :
    Title.parse ppFail cfgEmpty (sL ("* Hi")) =
      .ok ([], (Title.mk 1 none [] none (sL ("Hi")) none [], sL ("Hi"))) :=
  (C7_assembler_fallbacks ppFail cfgEmpty (sL ("* Hi")) [] (sL ("Hi")) 1 none none []
    (by rfl)).2.1 ⟨.other, rfl⟩ ⟨.tag, by rfl⟩

/-- C9: the detach operation `into_owned` preserves every field: it maps a
Title to an equal Title (lifetime independence itself has no content in this
value-level embedding). -/
theorem C9_into_owned_eq (t : Title) : t.into_owned = t := by
  cases t with
  | mk lvl pr tags kw raw pl props =>
    cases kw <;> cases pl <;>
      simp [Title.into_owned, Planning.into_owned, List.map_id', Prod.mk.eta]

/-- C10: `is_archived` is true exactly when some tag equals `ARCHIVE`
(case-sensitive), and its value depends on no field other than `tags`. -/
theorem C10_is_archived_spec (t : Title) :
    (t.is_archived = true ↔ sL ("ARCHIVE") ∈ t.tags) ∧
    (∀ lvl pr kw raw pl props lvl2 pr2 kw2 raw2 pl2 props2,
      (Title.mk lvl pr t.tags kw raw pl props).is_archived =
        (Title.mk lvl2 pr2 t.tags kw2 raw2 pl2 props2).is_archived) := by
  constructor
  · unfold Title.is_archived archiveName
    simp [List.any_eq_true]
  · intro lvl pr kw raw pl props lvl2 pr2 kw2 raw2 pl2 props2
    rfl

/-- C1: tag extraction splits the trimmed tail at its last space (the returned
index really is the last space), accepts the split only when the right part
has length above 2 and starts and ends with a colon (then raw is the trimmed
left part and the tags are the colon-split right part without empty segments,
in order), and otherwise returns the whole tail with no tags; the three quoted
tails and a full headline behave as stated. -/
theorem C1_tag_extraction :
    (∀ (tl : List Char) (i : Nat), lastIdxOf ' ' tl = some i →
      tl[i]? = some ' ' ∧ ∀ j, i < j → tl[j]? ≠ some ' ') ∧
    (∀ tl : List Char, lastIdxOf ' ' tl = none → (' ' : Char) ∉ tl) ∧
    (∀ tl : List Char, extract_tags tl = extractTagsSpec tl) ∧
    extract_tags (sL ("Title :tag:a2%:")) = (sL ("Title"), [sL ("tag"), sL ("a2%")]) ∧
    extract_tags (sL ("Title :tag:a2%")) = (sL ("Title :tag:a2%"), []) ∧
    extract_tags (sL ("Title tag:a2%:")) = (sL ("Title tag:a2%:"), []) ∧
    parse_headline cfgEmpty (sL ("* Title :tag:a2%:")) =
      .ok ([], (1, none, none, sL ("Title"), [sL ("tag"), sL ("a2%")])) :=
  ⟨fun _ _ h => lastIdxOf_getElem h, fun _ h => not_mem_of_lastIdxOf_none h,
    extract_tags_eq_spec, rfl, rfl, rfl, rfl⟩

/-- Witness for C1 at concrete inputs. -/
theorem C1_tag_extraction_witness :
    (sL ("a b"))[1]? = some ' ' ∧ (sL ("a b"))[4]? ≠ some ' ' ∧ (' ' : Char) ∉ sL ("ab") :=
  ⟨(C1_tag_extraction.1 (sL ("a b")) 1 (by rfl)).1,
    (C1_tag_extraction.1 (sL ("a b")) 1 (by rfl)).2 4 (by decide),
    C1_tag_extraction.2.1 (sL ("ab")) (by rfl)⟩

/-- C2 (amended): the priority step equals its flattened description, where a
word is accepted exactly when it BEGINS with the cookie pattern; recognition
happens with or without a preceding keyword; non-uppercase cookies are left in
the title. -/
theorem C2_priority_amended :
    (∀ input, priorityStep input = priorityStepSpec input) ∧
    (∀ (w : List Char) (c : Char), priorityWordVal w = some c →
      isAsciiUpper c = true ∧ w.take 4 = ['[', '#', c, ']']) ∧
    parse_headline cfgEmpty (sL ("* [#A] Title")) =
      .ok ([], (1, none, some 'A', sL ("Title"), [])) ∧
    parse_headline cfgTD (sL ("**** DONE [#1] COMMENT Title")) =
      .ok ([], (4, some (sL ("DONE")), none, sL ("[#1] COMMENT Title"), [])) ∧
    parse_headline cfgTD (sL ("**** DONE [#a] COMMENT Title")) =
      .ok ([], (4, some (sL ("DONE")), none, sL ("[#a] COMMENT Title"), [])) ∧
    parse_headline cfgEmpty (sL ("* [#A]x Title")) =
      .ok ([], (1, none, some 'A', sL ("Title"), [])) := by
  refine ⟨priorityStep_eq, ?_, rfl, rfl, rfl, rfl⟩
  intro w c h
  rcases w with _ | ⟨a, _ | ⟨b, _ | ⟨c2, _ | ⟨d, rest⟩⟩⟩⟩
  · simp [priorityWordVal] at h
  · simp [priorityWordVal] at h
  · simp [priorityWordVal] at h
  · simp [priorityWordVal] at h
  · unfold priorityWordVal at h
    dsimp only at h
    by_cases hc : a = '[' ∧ b = '#' ∧ d = ']' ∧ isAsciiUpper c2 = true
    · rw [if_pos hc] at h
      injection h with h2
      subst h2
      obtain ⟨h1, h2, h3, h4⟩ := hc
      subst h1
      subst h2
      subst h3
      exact ⟨h4, rfl⟩
    · rw [if_neg hc] at h
      cases h

/-- Witness for C2 at the concrete word of the counterexample. -/
theorem C2_priority_amended_witness :
    isAsciiUpper 'A' = true ∧ (sL ("[#A]x")).take 4 = ['[', '#', 'A', ']'] :=
  C2_priority_amended.2.1 (sL ("[#A]x")) 'A' (by rfl)

/-- C2 counterexample: the next whitespace-delimited word `[#A]x` does not
exactly match the cookie pattern, yet the parser recognizes priority `A` and
consumes the whole word. -/
theorem C2_exact_match_refuted :
    take_one_word (sL ("[#A]x Title")) = .ok (sL (" Title"), sL ("[#A]x")) ∧
    exactPriorityCookie (sL ("[#A]x")) = false ∧
    parse_headline cfgEmpty (sL ("* [#A]x Title")) =
      .ok ([], (1, none, some 'A', sL ("Title"), [])) :=
  ⟨rfl, rfl, rfl⟩

/-- C3: the keyword step equals its flattened description, where the word
after the marker run is accepted exactly when it is a member of either
vocabulary; empty vocabularies never extract a keyword; with a vocabulary not
containing DONE, `**** DONE Title` has no keyword and DONE stays in the raw
title. -/
theorem C3_keyword_vocabulary :
    (∀ config input, keywordStep config input = keywordStepSpec config input) ∧
    (∀ input, keywordStep cfgEmpty input = .ok (input, none)) ∧
    parse_headline cfgNoDone (sL ("**** DONE Title")) =
      .ok ([], (4, none, none, sL ("DONE Title"), [])) := by
  refine ⟨keywordStep_eq, ?_, rfl⟩
  intro input
  rw [keywordStep_eq]
  unfold keywordStepSpec
  cases h1 : space1 input with
  | error e => rfl
  | ok pr1 =>
    obtain ⟨i1, w1⟩ := pr1
    dsimp only
    cases h2 : take_one_word i1 with
    | error e => rfl
    | ok pr2 =>
      obtain ⟨i2, w⟩ := pr2
      dsimp only
      have hmem : ¬ (w ∈ cfgEmpty.todo_keywords ∨ w ∈ cfgEmpty.done_keywords) := by
        simp [cfgEmpty]
      rw [if_neg hmem]

/-- C5: inside a drawer body, each property line is parsed by skipping blank
lines and leading whitespace, reading `:NAME:` with trailing `'+'` stripped
from the name, and taking the rest of the physical line trimmed as the value;
a later occurrence of a name overwrites an earlier one, and the quoted
PROPERTIES example yields exactly the singleton map. -/
theorem C5_property_lines :
    (∀ (name value rest : List Char), (':' : Char) ∉ name → ('\n' : Char) ∉ value →
      parse_node_property (':' :: (name ++ ':' :: (value ++ '\n' :: rest))) =
        .ok (rest, (trimEndMatches '+' name, trim value))) ∧
    parse_properties_drawer (sL ("   :PROPERTIES:\n   :A: 1\n   :A: 2\n   :END:")) =
      .ok ([], [(sL ("A"), sL ("2"))]) ∧
    parse_properties_drawer (sL ("   :PROPERTIES:\n   :CUSTOM_ID: id\n   :END:")) =
      .ok ([], [(sL ("CUSTOM_ID"), sL ("id"))]) := by
  refine ⟨?_, rfl, rfl⟩
  intro name value rest hname hvalue
  have hws : isWS ':' = false := by decide
  have htw : (':' :: (name ++ ':' :: (value ++ '\n' :: rest))).takeWhile
      (fun c => c != '\n') =
      ':' :: ((name ++ ':' :: (value ++ '\n' :: rest)).takeWhile fun c => c != '\n') := by
    rw [List.takeWhile_cons]
    simp
  have hskip : skip_empty_lines (':' :: (name ++ ':' :: (value ++ '\n' :: rest))) =
      ':' :: (name ++ ':' :: (value ++ '\n' :: rest)) := by
    unfold skip_empty_lines
    unfold skipGo
    rw [htw]
    simp [List.all_cons, hws]
  have hts : trimStart (':' :: (name ++ ':' :: (value ++ '\n' :: rest))) =
      ':' :: (name ++ ':' :: (value ++ '\n' :: rest)) := by
    unfold trimStart
    rw [List.dropWhile_cons]
    simp [hws]
  have htag1 : tagP ([':']) (':' :: (name ++ ':' :: (value ++ '\n' :: rest))) =
      .ok (name ++ ':' :: (value ++ '\n' :: rest), [':']) := by
    unfold tagP
    simp [List.isPrefixOf]
  have hnameT : (name ++ ':' :: (value ++ '\n' :: rest)).takeWhile (fun c => c != ':') =
      name :=
    takeWhile_append_not _ (fun x hx => bne_iff_ne.mpr (fun he => hname (he ▸ hx)))
      (by decide)
  have htuc : take_until_colon (name ++ ':' :: (value ++ '\n' :: rest)) =
      .ok (':' :: (value ++ '\n' :: rest), name) := by
    unfold take_until_colon
    rw [hnameT]
    have hlt : name.length < (name ++ ':' :: (value ++ '\n' :: rest)).length := by
      rw [List.length_append]
      simp
    rw [if_pos hlt, List.drop_left]
  have htag2 : tagP ([':']) (':' :: (value ++ '\n' :: rest)) =
      .ok (value ++ '\n' :: rest, [':']) := by
    unfold tagP
    simp [List.isPrefixOf]
  have hvalT : (value ++ '\n' :: rest).takeWhile (fun c => c != '\n') = value :=
    takeWhile_append_not _ (fun x hx => bne_iff_ne.mpr (fun he => hvalue (he ▸ hx)))
      (by decide)
  have hvalD : (value ++ '\n' :: rest).drop (value.length + 1) = rest := by
    rw [← List.drop_drop, List.drop_left]
    rfl
  unfold parse_node_property
  rw [hskip, hts]
  unfold pmap delimited
  dsimp only
  rw [htag1]
  dsimp only
  rw [htuc]
  dsimp only
  rw [htag2]
  dsimp only
  unfold line
  rw [hvalT]
  dsimp only
  rw [hvalD]

/-- Witness for C5 at a concrete property line with a `+`-suffixed name. -/
theorem C5_property_lines_witness :
    parse_node_property (':' :: (sL ("X+") ++ ':' :: (sL (" v") ++ '\n' :: sL ("r")))) =
      .ok (sL ("r"), (trimEndMatches '+' (sL ("X+")), trim (sL (" v")))) :=
  C5_property_lines.1 (sL ("X+")) (sL (" v")) (sL ("r")) (by decide) (by decide)

/-- Witness for C8 at the concrete extraction of `Title :tag:a2%:`. -/
theorem C8_tags_roundtrip_witness :
    extract_tags (sL ("Title") ++ ' ' :: tagBlock [sL ("tag"), sL ("a2%")]) =
      (sL ("Title"), [sL ("tag"), sL ("a2%")]) :=
  C8_tags_roundtrip (sL ("Title :tag:a2%:")) (sL ("Title")) [sL ("tag"), sL ("a2%")]
    (by rfl) (by simp)

end Orgize
